import Mathlib

/-!
Shallow embedding of the binary-analysis core of the BROtronic repository
(src/services/romParser.ts together with the save path of src/App.tsx).

Modelling conventions:
* byte buffers (JS Uint8Array) are `List ℕ`; the Uint8Array invariant that
  every entry is below 256 is stated as a hypothesis where a theorem needs it;
* JS numbers are embedded as exact rationals; Math.round is `round`
  (half rounds up, as in JS), and toFixed(3) rounds to three decimals with
  ties toward the larger value (ECMAScript);
* JS bitwise ops on byte-sized operands are written arithmetically:
  on bytes, (hi << 8) | lo is 256 * hi + lo, & 0xFFFF is % 65536,
  & 0xFF is % 256;
* an out-of-range JS typed-array write is a no-op, exactly like List.set;
  an out-of-range read is modelled with List.getD (the scans below only read
  in bounds, or compare against byte patterns that the default cannot match).
-/

/-- Byte order tag, type Endian of types.ts. -/
inductive Endian
  | le
  | be
deriving DecidableEq

/-- Embedding of the textual scaling formulas inspected by evaluateFormula and
reverseFormula (romParser.ts).  Constructor X stands for the literal identity
texts (the strings X and x); divC k for the literal text X/k; mulC k for the
literal text X*k (numeric literals are read exactly, as rationals).  Constructor
other g ms ds stands for any other expression text: g is the value the JS
evaluation produces for it as a function of the substituted raw value (with the
NaN / non-number fallback of evaluateFormula already folded in), ms is the
parseFloat of the text after the first star when the text contains a star
(none otherwise, NaN read as 0), and ds likewise for a slash. -/
inductive Formula
  | X : Formula
  | divC : ℚ → Formula
  | mulC : ℚ → Formula
  | other : (ℚ → ℚ) → Option ℚ → Option ℚ → Formula

/-- Embeds ROMParser.evaluateFormula (romParser.ts:321-330).  An absent formula
and the identity text return x unchanged; X/k divides, X*k multiplies, and any
other expression returns its JS evaluation.  JS division by zero yields
Infinity, which has no rational embedding, so theorems touching divC k assume
k is nonzero. -/
def evaluateFormula : Option Formula → ℚ → ℚ
  | Option.none, x => x
  | some Formula.X, x => x
  | some (Formula.divC k), x => x / k
  | some (Formula.mulC k), x => x * k
  | some (Formula.other g _ _), x => g x

/-- One step of the 8-bit exhaustive scan of reverseFormula
(romParser.ts:340-345); the none state of the accumulator is the initial
minDiff = Infinity, beaten by every finite difference. -/
def scanStep (f : Option Formula) (target : ℚ) (acc : ℕ × Option ℚ) (i : ℕ) :
    ℕ × Option ℚ :=
  let diff := |evaluateFormula f i - target|
  match acc.2 with
  | Option.none => (i, some diff)
  | some m => if diff < m then (i, some diff) else acc

/-- The dataSize = 8 exhaustive-search branch of ROMParser.reverseFormula
(romParser.ts:339-346): scan raw values 0..255 in order, keeping the first
strict minimum of the absolute difference to the target. -/
def reverse8 (f : Option Formula) (target : ℚ) : ℕ :=
  ((List.range 256).foldl (scanStep f target) (0, Option.none)).1

/-- JS x || 1 applied to a parsed factor (parseFloat(...) || 1 in
romParser.ts:348-349): zero (and NaN, read as 0 by Formula.other) falls back
to 1. -/
def or1 (k : ℚ) : ℚ := if k = 0 then 1 else k

/-- Embeds ROMParser.reverseFormula (romParser.ts:332-352).  The identity texts
return round target; the three literal texts X/4, X/256 and X*0.05 are checked
before the dataSize split and get exact rounded inverses; every other formula
falls to the exhaustive 8-bit scan when dataSize is 8, and otherwise to the
split-on-star-then-slash analytic guess. -/
def reverseFormula (f : Option Formula) (target : ℚ) (dataSize : ℕ) : ℤ :=
  match f with
  | Option.none => round target
  | some Formula.X => round target
  | some (Formula.divC k) =>
      if k = 4 then round (target * 4)
      else if k = 256 then round (target * 256)
      else if dataSize = 8 then (reverse8 f target : ℤ)
      else round (target * or1 k)
  | some (Formula.mulC k) =>
      if k = 1 / 20 then round (target / (1 / 20))
      else if dataSize = 8 then (reverse8 f target : ℤ)
      else round (target / or1 k)
  | some (Formula.other _ ms ds) =>
      if dataSize = 8 then (reverse8 f target : ℤ)
      else
        match ms with
        | some m => round (target / or1 m)
        | Option.none =>
            match ds with
            | some d => round (target * or1 d)
            | Option.none => round target

/-- Whether the formula is one of the literal identity texts X or x (or is
absent), which reverseFormula short-circuits to round target
(romParser.ts:333). -/
def isIdentityFormula : Option Formula → Prop
  | Option.none => True
  | some Formula.X => True
  | some (Formula.divC _) => False
  | some (Formula.mulC _) => False
  | some (Formula.other _ _ _) => False

/-- Whether the formula is one of the three literal texts with built-in
analytic inverses, X/4, X/256 and X*0.05 (romParser.ts:335-337). -/
def isAnalyticString : Option Formula → Prop
  | some (Formula.divC k) => k = 4 ∨ k = 256
  | some (Formula.mulC k) => k = 1 / 20
  | _ => False

/-- Embeds ROMParser.calculateSummation16 (romParser.ts:166-172): running
16-bit sum over every byte of the buffer (the & 0xFFFF of the source is
% 65536). -/
def calculateSummation16 (data : List ℕ) : ℕ :=
  data.foldl (fun s b => (s + b) % 65536) 0

/-- The checksum16 field that ROMParser.parse stores in its ParseResult and
integrity diagnostic (romParser.ts:21-31). -/
def parseChecksum16 (data : List ℕ) : ℕ := calculateSummation16 data

/-- Embeds ROMParser.calculateCorrectChecksum (romParser.ts:375-380): the same
running 16-bit sum, stopping two bytes short of the end. -/
def calculateCorrectChecksum (data : List ℕ) : ℕ :=
  (data.take (data.length - 2)).foldl (fun s b => (s + b) % 65536) 0

/-- Embeds ROMParser.verifyChecksum (romParser.ts:382-388): false below the
0x4000 size floor, else compare the recomputed sum with the big-endian trailer
word (on bytes, (hi << 8) | lo is 256 * hi + lo). -/
def verifyChecksum (data : List ℕ) : Bool :=
  if data.length < 0x4000 then false
  else
    calculateCorrectChecksum data ==
      256 * data.getD (data.length - 2) 0 + data.getD (data.length - 1) 0

/-- The fields of a DMEMap (types.ts) that extraction and writeback read.
dataSize is 8 or 16 in the TS type; endian none is the undefined case, which
the source treats as big-endian. -/
structure DMEMap where
  offset : ℕ
  rows : ℕ
  cols : ℕ
  dataSize : ℕ
  endian : Option Endian
  formula : Option Formula

/-- A raw cell read at a byte offset (romParser.ts:363-366): 16-bit words are
assembled from two bytes in the requested order, 8-bit reads return the byte. -/
def readRaw (rom : List ℕ) (dataSize : ℕ) (endian : Option Endian) (off : ℕ) : ℕ :=
  if dataSize = 16 then
    if endian = some Endian.le then rom.getD off 0 + 256 * rom.getD (off + 1) 0
    else 256 * rom.getD off 0 + rom.getD (off + 1) 0
  else rom.getD off 0

/-- Embeds Number(v.toFixed(3)) (romParser.ts:368): round to three decimal
places, ties toward the larger value. -/
def toFixed3 (q : ℚ) : ℚ := (round (q * 1000) : ℚ) / 1000

/-- The inner cols loop of ROMParser.extractMapData (romParser.ts:360-369),
threading currentOffset; an out-of-range cell pushes 0 and does not advance
the offset. -/
def extractRow (rom : List ℕ) (m : DMEMap) : ℕ → ℕ → List ℚ × ℕ
  | 0, off => ([], off)
  | n + 1, off =>
      let step := m.dataSize / 8
      if off + step > rom.length then
        let rest := extractRow rom m n off
        (0 :: rest.1, rest.2)
      else
        let v := toFixed3 (evaluateFormula m.formula (readRaw rom m.dataSize m.endian off))
        let rest := extractRow rom m n (off + step)
        (v :: rest.1, rest.2)

/-- The outer rows loop of ROMParser.extractMapData (romParser.ts:358-371). -/
def extractRows (rom : List ℕ) (m : DMEMap) : ℕ → ℕ → List (List ℚ)
  | 0, _ => []
  | r + 1, off =>
      let row := extractRow rom m m.cols off
      row.1 :: extractRows rom m r row.2

/-- Embeds ROMParser.extractMapData (romParser.ts:354-373). -/
def extractMapData (rom : List ℕ) (m : DMEMap) : List (List ℚ) :=
  extractRows rom m m.rows m.offset

/-- The 8-bit cell clamp of handleSaveRom (App.tsx:192),
Math.max(0, Math.min(255, raw)). -/
def clamp8 (raw : ℤ) : ℕ := (max 0 (min 255 raw)).toNat

/-- JS raw >> 8 on an integer: floor division by 256. -/
def jsShr8 (raw : ℤ) : ℤ := Int.fdiv raw 256

/-- One cell write of handleSaveRom (App.tsx:181-193).  On an integer,
JS raw & 0xFF is the euclidean raw % 256. -/
def writeCell (data : List ℕ) (m : DMEMap) (off : ℕ) (v : ℚ) : List ℕ :=
  let raw := reverseFormula m.formula v m.dataSize
  if m.dataSize = 16 then
    if m.endian = some Endian.le then
      (data.set off (raw % 256).toNat).set (off + 1) (jsShr8 raw % 256).toNat
    else
      (data.set off (jsShr8 raw % 256).toNat).set (off + 1) (raw % 256).toNat
  else data.set off (clamp8 raw)

/-- The nested cell loops of handleSaveRom (App.tsx:179-196): row-major over
rows x cols, threading currentOffset; the loop reads editingData[r][c]
for every loop index (embedded with default 0, the editor grids being
well-shaped). -/
def writeMapData (data : List ℕ) (m : DMEMap) (grid : List (List ℚ)) : List ℕ :=
  ((List.range m.rows).foldl
    (fun st r =>
      (List.range m.cols).foldl
        (fun st c =>
          (writeCell st.1 m st.2 ((grid.getD r []).getD c 0), st.2 + m.dataSize / 8))
        st)
    (data, m.offset)).1

/-- Embeds handleSaveRom (App.tsx:172-208): optionally write the edited grid,
then store calculateCorrectChecksum big-endian at the fixed offsets
0xFFFE / 0xFFFF ((newSum >> 8) & 0xFF is newSum / 256 % 256 on naturals; a
typed-array write beyond the end is a no-op, as is List.set). -/
def handleSaveRom (data : List ℕ) (sel : Option (DMEMap × List (List ℚ))) : List ℕ :=
  let newData := match sel with
    | Option.none => data
    | some (m, grid) => writeMapData data m grid
  let newSum := calculateCorrectChecksum newData
  (newData.set 0xFFFE (newSum / 256 % 256)).set 0xFFFF (newSum % 256)

/-- The AxisSource enum of types.ts. -/
inductive AxisSource
  | step
  | romAddress
  | none
deriving DecidableEq

/-- The fields of an Axis (types.ts) that getAxisValues reads; the optional
values override is embedded with the empty list as the absent case, which the
source treats identically. -/
structure Axis where
  size : ℕ
  offset : ℕ
  source : AxisSource
  stepValue : Option ℚ
  dataSize : ℕ
  endian : Option Endian
  formula : Option Formula
  values : List ℚ

/-- Embeds ROMParser.getAxisValues (romParser.ts:390-412).  Order of the
source: absent or disabled axis first (empty result), then the non-empty
values override, then size || 1; a step axis synthesizes formula(i * step)
with stepValue || 1; a ROM axis bounds-checks its whole span up front and
degrades to zeros, else reads sample i at offset + i * step. -/
def getAxisValues (rom : List ℕ) (axis : Option Axis) : List ℚ :=
  match axis with
  | Option.none => []
  | some a =>
    if a.source = AxisSource.none then []
    else if a.values ≠ [] then a.values
    else
      let size := if a.size = 0 then 1 else a.size
      if a.source = AxisSource.step then
        let step : ℚ := match a.stepValue with
          | Option.none => 1
          | some s => if s = 0 then 1 else s
        (List.range size).map fun i : ℕ => evaluateFormula a.formula ((i : ℚ) * step)
      else
        let stepB := a.dataSize / 8
        if a.offset + size * stepB > rom.length then List.replicate size 0
        else
          (List.range size).map fun i =>
            evaluateFormula a.formula (readRaw rom a.dataSize a.endian (a.offset + i * stepB))

/-- A reported self-pointer block (romParser.ts:178-179). -/
structure SPBlock where
  offset : ℕ
  length : ℕ
  endian : Endian
deriving DecidableEq

/-- The 16-bit little-endian word at byte offset i,
data[i] | (data[i+1] << 8) on bytes (romParser.ts:200). -/
def wordLE (data : List ℕ) (i : ℕ) : ℕ :=
  data.getD i 0 + 256 * data.getD (i + 1) 0

/-- The inner while of the little-endian self-pointer scan
(romParser.ts:203-207): length of the run of words equal to their own offset,
from i upward in steps of two, stopping past data.length - 1.  The fuel
argument makes the recursion structural; it only ever decreases by runs of the
loop, each of which advances i by two, so a fuel of data.length can never be
exhausted from a start below data.length - 1. -/
def runLenAux (data : List ℕ) : ℕ → ℕ → ℕ
  | 0, _ => 0
  | fuel + 1, i =>
      if i < data.length - 1 ∧ wordLE data i = i then 1 + runLenAux data fuel (i + 2)
      else 0

/-- Run length of self-referencing little-endian words starting at i. -/
def runLen (data : List ℕ) (i : ℕ) : ℕ := runLenAux data data.length i

/-- The for loop of the little-endian scan of ROMParser.findSelfPointerBlocks
(romParser.ts:199-213): at a self-referencing word, record the whole run
(unless a block with the same offset was already pushed) and resume right
after it; otherwise step by two.  Fuel as in runLenAux: every iteration
advances i by at least two, so data.length + 1 units can never run out. -/
def spScanAux (data : List ℕ) : ℕ → ℕ → List SPBlock → List SPBlock
  | 0, _, acc => acc
  | fuel + 1, i, acc =>
      if i < data.length - 1 then
        if wordLE data i = i then
          let c := runLen data i
          let acc2 :=
            if acc.any (fun b => b.offset = i) then acc
            else acc ++ [⟨i, c, Endian.le⟩]
          spScanAux data fuel (i + 2 * c) acc2
        else spScanAux data fuel (i + 2) acc
      else acc

/-- Embeds ROMParser.findSelfPointerBlocks (romParser.ts:178-216).  The
big-endian scan of the source (romParser.ts:181-196) is commented out, so only
the little-endian pass runs; the blocks are then sorted by descending run
length (JS sort is stable) and capped at the 15 longest. -/
def findSelfPointerBlocks (data : List ℕ) : List SPBlock :=
  (List.insertionSort (fun a b => b.length ≤ a.length) (spScanAux data (data.length + 1) 0 [])).take 15

/-- ASCII digit test, 48 <= c <= 57 (romParser.ts:290). -/
def isDigitByte (c : ℕ) : Bool := 48 ≤ c && c ≤ 57

/-- Prefix comparison at scan position i (romParser.ts:275-281); running off
the end of the buffer can never match, as in JS where undefined equals no
byte. -/
def matchAt (data : List ℕ) (i : ℕ) (pat : List ℕ) : Bool :=
  (data.drop i).take pat.length == pat

/-- The leftward digit walk of the reversed branch of findBoschIDWithOffset
(romParser.ts:284-299): from p downward, collect up to ten ASCII digits (which
restores the logical left-to-right order of a byte-reversed identifier); a
non-digit after at least one digit ends the walk unsuccessfully, as does
falling off the left edge early; exactly ten digits yield the identifier and
the offset of its lowest byte. -/
def walkLeft (data : List ℕ) : ℕ → ℕ → List ℕ → Option (List ℕ × ℕ)
  | p, found, acc =>
      let c := data.getD p 0
      if isDigitByte c then
        if found + 1 = 10 then some (acc ++ [c], p)
        else
          match p with
          | 0 => Option.none
          | p' + 1 => walkLeft data p' (found + 1) (acc ++ [c])
      else if 0 < found then Option.none
      else
        match p with
        | 0 => Option.none
        | p' + 1 => walkLeft data p' found acc

/-- The rightward digit walk of the forward branch of findBoschIDWithOffset
(romParser.ts:300-313): append digits to the collected value until ten
characters are reached; space, dot, dash and null bytes are skipped, any other
byte aborts this candidate.  Fuel: each run of the loop advances p by one, so
data.length - p fuel at the call site always suffices. -/
def walkRightAux (data : List ℕ) : ℕ → ℕ → ℕ → List ℕ → Option (List ℕ)
  | 0, _, found, acc =>
      if found ≥ 10 then some acc
      else Option.none
  | fuel + 1, p, found, acc =>
      if found ≥ 10 then some acc
      else if p < data.length then
        let c := data.getD p 0
        if isDigitByte c then walkRightAux data fuel (p + 1) (found + 1) (acc ++ [c])
        else if c = 32 ∨ c = 46 ∨ c = 45 ∨ c = 0 then walkRightAux data fuel (p + 1) found acc
        else Option.none
      else Option.none

/-- Embeds ROMParser.findBoschIDWithOffset (romParser.ts:270-319).  Scan start
positions i below data.length - 15 in order; in reversed mode the prefix text
is mirrored before matching and digits are collected leftward from the end of
the matched pattern; in forward mode the collected value starts with the
prefix text itself and digits continue rightward from just past the match. -/
def findBoschIDWithOffset (data : List ℕ) (pre : List ℕ) (reversed : Bool) :
    Option (List ℕ × ℕ) :=
  let searchPat := if reversed then pre.reverse else pre
  (List.range (data.length - 15)).findSome? fun i =>
    if matchAt data i searchPat then
      if reversed then walkLeft data (i + searchPat.length - 1) 0 []
      else
        (walkRightAux data (data.length - (i + searchPat.length)) (i + searchPat.length)
            pre.length pre).map fun v => (v, i)
    else Option.none

lemma foldl_mod65536 (l : List ℕ) : ∀ s : ℕ, s < 65536 →
    l.foldl (fun a b => (a + b) % 65536) s = (s + l.sum) % 65536 := by
  induction l with
  | nil => intro s hs; simp [Nat.mod_eq_of_lt hs]
  | cons b t ih =>
      intro s hs
      simp only [List.foldl_cons, List.sum_cons]
      rw [ih _ (Nat.mod_lt _ (by norm_num))]
      omega

lemma repl_zero_sum (n : ℕ) : (List.replicate n (0:ℕ)).sum = 0 := by
  induction n with
  | zero => rfl
  | succ k ih => rw [List.replicate_succ, List.sum_cons, ih]

lemma getD_replicate_zero (n k : ℕ) : (List.replicate n (0:ℕ)).getD k 0 = 0 := by
  induction n generalizing k with
  | zero => rfl
  | succ m ih =>
      rw [List.replicate_succ]
      cases k with
      | zero => rfl
      | succ j => rw [List.getD_cons_succ]; exact ih j

/-- C2: for a buffer of at least the 16 KiB floor, verifyChecksum is true
exactly when the 16-bit sum modulo 65536 of all bytes but the last two equals
the big-endian 16-bit value held in the last two bytes; any smaller buffer
yields false (and never an exception, the embedding being total). -/
theorem verifyChecksum_agree (data : List ℕ) (_hb : ∀ b ∈ data, b < 256) :
    (data.length < 0x4000 → verifyChecksum data = false) ∧
    (0x4000 ≤ data.length →
      (verifyChecksum data = true ↔
        (data.take (data.length - 2)).sum % 65536 =
          256 * data.getD (data.length - 2) 0 + data.getD (data.length - 1) 0)) := by
  constructor
  · intro h
    simp [verifyChecksum, h]
  · intro h
    rw [verifyChecksum, if_neg (by omega)]
    rw [calculateCorrectChecksum, foldl_mod65536 _ 0 (by norm_num)]
    simp

theorem verifyChecksum_agree_witness :
    verifyChecksum (List.replicate 16384 0) = true :=
  ((verifyChecksum_agree (List.replicate 16384 0)
      (fun b hb => by simp [List.eq_of_mem_replicate hb])).2
    (by simp only [List.length_replicate]; norm_num)).mpr
    (by
      have h2 : (List.replicate 16384 (0:ℕ)).length - 2 = 16382 := by
        rw [List.length_replicate]
      rw [h2, List.take_replicate, Nat.min_eq_left (by norm_num), repl_zero_sum,
        getD_replicate_zero, getD_replicate_zero])

/-- C10: the checksum16 field of the ParseResult is the 16-bit sum modulo
65536 of every byte of the buffer, trailer included, and therefore differs
from the verification sum (which stops before the trailer) whenever the stored
trailer bytes are not both zero. -/
theorem parseChecksum16_includes_trailer (data : List ℕ) (hb : ∀ b ∈ data, b < 256)
    (h2 : 2 ≤ data.length) :
    parseChecksum16 data = data.sum % 65536 ∧
    ((data.getD (data.length - 2) 0 ≠ 0 ∨ data.getD (data.length - 1) 0 ≠ 0) →
      parseChecksum16 data ≠ calculateCorrectChecksum data) := by
  have h1 : parseChecksum16 data = data.sum % 65536 := by
    rw [parseChecksum16, calculateSummation16, foldl_mod65536 _ 0 (by norm_num),
      Nat.zero_add]
  refine ⟨h1, ?_⟩
  intro hne
  have hl : (data.drop (data.length - 2)).length = 2 := by
    rw [List.length_drop]; omega
  rcases e : data.drop (data.length - 2) with _ | ⟨a, _ | ⟨b, rest⟩⟩
  · rw [e] at hl; simp at hl
  · rw [e] at hl; simp at hl
  · have hrest : rest = [] := by
      rw [e] at hl
      simpa using hl
    subst hrest
    have h0 : data[data.length - 2]? = some a := by
      have h' := List.getElem?_drop data (data.length - 2) 0
      rw [e] at h'
      simpa using h'.symm
    have h1' : data[data.length - 1]? = some b := by
      have h' := List.getElem?_drop data (data.length - 2) 1
      rw [e] at h'
      have hix : data.length - 2 + 1 = data.length - 1 := by omega
      rw [hix] at h'
      simpa using h'.symm
    have ha : data.getD (data.length - 2) 0 = a := by
      rw [List.getD_eq_getElem?_getD, h0]; rfl
    have hbv : data.getD (data.length - 1) 0 = b := by
      rw [List.getD_eq_getElem?_getD, h1']; rfl
    have hamem : a ∈ data := (List.drop_sublist (data.length - 2) data).subset (by rw [e]; simp)
    have hbmem : b ∈ data := (List.drop_sublist (data.length - 2) data).subset (by rw [e]; simp)
    have ha256 : a < 256 := hb a hamem
    have hb256 : b < 256 := hb b hbmem
    have hpos : 0 < a + b := by
      rw [ha, hbv] at hne
      omega
    have hsum : data.sum = (data.take (data.length - 2)).sum + (a + b) := by
      conv_lhs => rw [← List.take_append_drop (data.length - 2) data]
      rw [List.sum_append, e]
      simp [Nat.add_assoc]
    have hcc : calculateCorrectChecksum data = (data.take (data.length - 2)).sum % 65536 := by
      rw [calculateCorrectChecksum, foldl_mod65536 _ 0 (by norm_num), Nat.zero_add]
    rw [h1, hcc, hsum]
    omega

theorem parseChecksum16_includes_trailer_witness :
    parseChecksum16 [7, 3, 9] = [7, 3, 9].sum % 65536 ∧
    (([7, 3, 9].getD ([7, 3, 9].length - 2) 0 ≠ 0 ∨
        [7, 3, 9].getD ([7, 3, 9].length - 1) 0 ≠ 0) →
      parseChecksum16 [7, 3, 9] ≠ calculateCorrectChecksum [7, 3, 9]) :=
  parseChecksum16_includes_trailer [7, 3, 9] (by decide) (by decide)

lemma set_trailer_noop (l : List ℕ) (h : l.length ≤ 65534) (a b : ℕ) :
    (l.set 65534 a).set 65535 b = l := by
  rw [List.set_eq_of_length_le (by rw [List.length_set]; omega),
    List.set_eq_of_length_le h]

lemma getD_cons_replicate_zero (a k n : ℕ) (hk : 0 < k) :
    (a :: List.replicate n (0:ℕ)).getD k 0 = 0 := by
  cases k with
  | zero => omega
  | succ j => rw [List.getD_cons_succ]; exact getD_replicate_zero n j

/-- C4 (code bug): the save path stores the recomputed checksum at the fixed
offsets 0xFFFE and 0xFFFF, not at the end of the buffer; on a standard 32 KiB
image (a size the loader accepts as valid) both writes fall beyond the buffer
and are dropped, so the trailer keeps its stale value and verification fails
right after saving, against the claimed idempotence. -/
theorem saveRom_checksum_stale_at_32k :
    verifyChecksum (handleSaveRom (1 :: List.replicate 32767 0) Option.none) = false := by
  have hlen : (1 :: List.replicate 32767 (0:ℕ)).length = 32768 := by
    rw [List.length_cons, List.length_replicate]
  have hid : handleSaveRom (1 :: List.replicate 32767 0) Option.none =
      1 :: List.replicate 32767 0 :=
    set_trailer_noop _ (by rw [hlen]; norm_num) _ _
  rw [hid, verifyChecksum, if_neg (by rw [hlen]; norm_num)]
  have hcalc : calculateCorrectChecksum (1 :: List.replicate 32767 0) = 1 := by
    rw [calculateCorrectChecksum, hlen]
    have h2 : (32768:ℕ) - 2 = 32766 := by norm_num
    rw [h2, List.take_cons (by norm_num), List.take_replicate,
      Nat.min_eq_left (by norm_num), foldl_mod65536 _ 0 (by norm_num), Nat.zero_add,
      List.sum_cons, repl_zero_sum]
  rw [hcalc, hlen]
  have h2 : (32768:ℕ) - 2 = 32766 := by norm_num
  have h1 : (32768:ℕ) - 1 = 32767 := by norm_num
  rw [h2, h1, getD_cons_replicate_zero _ _ _ (by norm_num),
    getD_cons_replicate_zero _ _ _ (by norm_num)]
  rfl

/-- C9 counterexample: a 12-byte buffer has no offsets 12 and 13, so the
scenario of the claim cannot hold there; on the 12-byte buffer holding as much
of [4, 8, 12, 16] at offset 10 as fits, the second row degrades to zeros and
the extracted grid is not [[1,2],[3,4]]. -/
theorem extractMap_truncated_12byte_cex :
    extractMapData [0, 0, 0, 0, 0, 0, 0, 0, 0, 0, 4, 8]
        ⟨10, 2, 2, 8, Option.none, some (Formula.divC 4)⟩ = [[1, 2], [0, 0]] ∧
    extractMapData [0, 0, 0, 0, 0, 0, 0, 0, 0, 0, 4, 8]
        ⟨10, 2, 2, 8, Option.none, some (Formula.divC 4)⟩ ≠ [[1, 2], [3, 4]] := by
  have h1 : extractMapData [0, 0, 0, 0, 0, 0, 0, 0, 0, 0, 4, 8]
      ⟨10, 2, 2, 8, Option.none, some (Formula.divC 4)⟩ = [[1, 2], [0, 0]] := by
    norm_num [extractMapData, extractRows, extractRow, readRaw, evaluateFormula, toFixed3]
  exact ⟨h1, by rw [h1]; decide⟩

/-- C9 amended: over a 14-byte buffer, whose offsets 10 to 13 exist and hold
[4, 8, 12, 16], the map extracts to [[1,2],[3,4]], and the save path writes
the grid back reproducing the buffer byte for byte. -/
theorem extractMap_14byte_roundtrip :
    extractMapData [0, 0, 0, 0, 0, 0, 0, 0, 0, 0, 4, 8, 12, 16]
        ⟨10, 2, 2, 8, Option.none, some (Formula.divC 4)⟩ = [[1, 2], [3, 4]] ∧
    handleSaveRom [0, 0, 0, 0, 0, 0, 0, 0, 0, 0, 4, 8, 12, 16]
        (some (⟨10, 2, 2, 8, Option.none, some (Formula.divC 4)⟩, [[1, 2], [3, 4]])) =
      [0, 0, 0, 0, 0, 0, 0, 0, 0, 0, 4, 8, 12, 16] := by
  have hr : List.range 2 = [0, 1] := rfl
  constructor
  · norm_num [extractMapData, extractRows, extractRow, readRaw, evaluateFormula, toFixed3]
  · norm_num [handleSaveRom, writeMapData, writeCell, reverseFormula, clamp8, hr]
    decide

/-- C3 counterexample: the big-endian self-pointer scan is commented out in
the source, so a buffer whose big-endian words at offsets 100 and 102 equal
100 and 102 produces no block at all, not the claimed
block with offset 100, length 2 and endian be. -/
theorem findSelfPointerBlocks_be_cex :
    findSelfPointerBlocks (List.replicate 100 255 ++ [0, 100, 0, 102]) = [] ∧
    findSelfPointerBlocks (List.replicate 100 255 ++ [0, 100, 0, 102]) ≠
      [⟨100, 2, Endian.be⟩] := by
  decide

/-- C3 amended: only the little-endian pass runs, and on the analogous buffer
whose little-endian words at offsets 100 and 102 equal their own offsets the
scan reports exactly one block with offset 100, length 2 and endian le. -/
theorem findSelfPointerBlocks_le_concrete :
    findSelfPointerBlocks (List.replicate 100 255 ++ [100, 0, 102, 0]) =
      [⟨100, 2, Endian.le⟩] := by
  decide

lemma reverse8_invariant (f : Option Formula) (t : ℚ) :
    ∀ k : ℕ, 1 ≤ k →
    ∃ b m, (List.range k).foldl (scanStep f t) (0, Option.none) = (b, some m) ∧
      b < k ∧ m = |evaluateFormula f (b : ℚ) - t| ∧
      (∀ j : ℕ, j < k → m ≤ |evaluateFormula f (j : ℚ) - t|) ∧
      (∀ j : ℕ, j < b → m < |evaluateFormula f (j : ℚ) - t|) := by
  intro k hk
  induction k, hk using Nat.le_induction with
  | base =>
      refine ⟨0, |evaluateFormula f ((0 : ℕ) : ℚ) - t|, ?_, by omega, rfl, ?_, by omega⟩
      · rw [show List.range 1 = [0] from rfl, List.foldl_cons, List.foldl_nil]
        rfl
      · intro j hj
        interval_cases j
        exact le_refl _
  | succ n hn ih =>
      obtain ⟨b, m, hfold, hblt, hm, hmin, hstrict⟩ := ih
      rw [List.range_succ, List.foldl_append, hfold]
      simp only [List.foldl_cons, List.foldl_nil, scanStep]
      by_cases hlt : |evaluateFormula f (n : ℚ) - t| < m
      · rw [if_pos hlt]
        refine ⟨n, |evaluateFormula f (n : ℚ) - t|, rfl, by omega, rfl, ?_, ?_⟩
        · intro j hj
          rcases Nat.lt_succ_iff_lt_or_eq.mp hj with hj' | hj'
          · exact le_of_lt (lt_of_lt_of_le hlt (hmin j hj'))
          · subst hj'
            exact le_refl _
        · intro j hj
          exact lt_of_lt_of_le hlt (hmin j hj)
      · rw [if_neg hlt]
        refine ⟨b, m, rfl, by omega, hm, ?_, hstrict⟩
        intro j hj
        rcases Nat.lt_succ_iff_lt_or_eq.mp hj with hj' | hj'
        · exact hmin j hj'
        · subst hj'
          exact le_of_not_lt hlt

lemma reverse8_spec (f : Option Formula) (t : ℚ) :
    reverse8 f t < 256 ∧
    (∀ j : ℕ, j < 256 →
      |evaluateFormula f ((reverse8 f t : ℕ) : ℚ) - t| ≤ |evaluateFormula f (j : ℚ) - t|) ∧
    (∀ j : ℕ, j < 256 →
      |evaluateFormula f (j : ℚ) - t| = |evaluateFormula f ((reverse8 f t : ℕ) : ℚ) - t| →
      reverse8 f t ≤ j) := by
  obtain ⟨b, m, hfold, hb, hm, hmin, hstrict⟩ := reverse8_invariant f t 256 (by norm_num)
  have hrb : reverse8 f t = b := by rw [reverse8, hfold]
  rw [hrb]
  refine ⟨hb, ?_, ?_⟩
  · intro j hj
    rw [← hm]
    exact hmin j hj
  · intro j _ hje
    by_contra hcon
    have hjb : j < b := by omega
    have hcontr := hstrict j hjb
    rw [hje, ← hm] at hcontr
    exact lt_irrefl m hcontr

/-- C6 amended: in the 16-bit domain, reverse evaluation of a formula of shape
X/k returns round(target*k) and of shape X*k returns round(target/k) for every
nonzero k (a zero factor falls back to 1 in the source); in the 8-bit domain
the analytic inverse applies exactly to the three recognized literal texts
X/4, X/256 and X*0.05, every other shape falling to the exhaustive scan. -/
theorem reverseFormula_analytic_inverse (k t : ℚ) (hk : k ≠ 0) :
    reverseFormula (some (Formula.divC k)) t 16 = round (t * k) ∧
    reverseFormula (some (Formula.mulC k)) t 16 = round (t / k) ∧
    reverseFormula (some (Formula.divC 4)) t 8 = round (t * 4) ∧
    reverseFormula (some (Formula.divC 256)) t 8 = round (t * 256) ∧
    reverseFormula (some (Formula.mulC (1 / 20))) t 8 = round (t / (1 / 20)) := by
  refine ⟨?_, ?_, ?_, ?_, ?_⟩
  · simp only [reverseFormula]
    split_ifs with h1 h2 h3
    · rw [h1]
    · rw [h2]
    · omega
    · rw [or1, if_neg hk]
  · simp only [reverseFormula]
    split_ifs with h1 h2
    · rw [h1]
    · omega
    · rw [or1, if_neg hk]
  · simp [reverseFormula]
  · simp [reverseFormula]
  · simp [reverseFormula]

theorem reverseFormula_analytic_inverse_witness :
    reverseFormula (some (Formula.divC 3)) 7 16 = round ((7:ℚ) * 3) ∧
    reverseFormula (some (Formula.mulC 3)) 7 16 = round ((7:ℚ) / 3) ∧
    reverseFormula (some (Formula.divC 4)) 7 8 = round ((7:ℚ) * 4) ∧
    reverseFormula (some (Formula.divC 256)) 7 8 = round ((7:ℚ) * 256) ∧
    reverseFormula (some (Formula.mulC (1 / 20))) 7 8 = round ((7:ℚ) / (1 / 20)) :=
  reverseFormula_analytic_inverse 3 7 (by norm_num)

/-- C6 counterexample: in the 8-bit domain the shape X/2 is not analytically
inverted; the exhaustive scan caps the result below 256, so at target 1000 it
cannot return round(1000*2) = 2000. -/
theorem reverseFormula_div2_8bit_cex :
    reverseFormula (some (Formula.divC 2)) 1000 8 ≠ round ((1000:ℚ) * 2) := by
  have hsp := (reverse8_spec (some (Formula.divC 2)) 1000).1
  have he : reverseFormula (some (Formula.divC 2)) 1000 8 =
      (reverse8 (some (Formula.divC 2)) 1000 : ℤ) := by
    simp [reverseFormula]
  rw [he, show round ((1000:ℚ) * 2) = 2000 by norm_num]
  omega

/-- C1 amended: for every formula other than the identity texts and the three
recognized analytic texts, 8-bit reverse evaluation performs the exhaustive
scan and returns the raw value in [0,255] minimizing the absolute difference
of its forward evaluation to the target, ties broken by the lowest raw value;
the excepted formulas return the exact rounded analytic inverse instead, which
can lie outside [0,255]. -/
theorem reverseFormula8_argmin (f : Option Formula) (t : ℚ)
    (hid : ¬ isIdentityFormula f) (han : ¬ isAnalyticString f) :
    reverseFormula f t 8 = (reverse8 f t : ℤ) ∧
    reverse8 f t < 256 ∧
    (∀ j : ℕ, j < 256 →
      |evaluateFormula f ((reverse8 f t : ℕ) : ℚ) - t| ≤ |evaluateFormula f (j : ℚ) - t|) ∧
    (∀ j : ℕ, j < 256 →
      |evaluateFormula f (j : ℚ) - t| = |evaluateFormula f ((reverse8 f t : ℕ) : ℚ) - t| →
      reverse8 f t ≤ j) := by
  have hsp := reverse8_spec f t
  refine ⟨?_, hsp.1, hsp.2.1, hsp.2.2⟩
  match f with
  | Option.none => exact absurd trivial hid
  | some Formula.X => exact absurd trivial hid
  | some (Formula.divC k) =>
      have hne : ¬(k = 4 ∨ k = 256) := han
      push_neg at hne
      simp [reverseFormula, hne.1, hne.2]
  | some (Formula.mulC k) =>
      have hne : ¬(k = 1 / 20) := han
      simp only [reverseFormula]
      rw [if_neg hne]
      simp
  | some (Formula.other g ms ds) =>
      simp [reverseFormula]

theorem reverseFormula8_argmin_witness :
    reverseFormula (some (Formula.divC 2)) 3 8 = (reverse8 (some (Formula.divC 2)) 3 : ℤ) ∧
    reverse8 (some (Formula.divC 2)) 3 < 256 ∧
    (∀ j : ℕ, j < 256 →
      |evaluateFormula (some (Formula.divC 2))
          ((reverse8 (some (Formula.divC 2)) 3 : ℕ) : ℚ) - 3| ≤
        |evaluateFormula (some (Formula.divC 2)) (j : ℚ) - 3|) ∧
    (∀ j : ℕ, j < 256 →
      |evaluateFormula (some (Formula.divC 2)) (j : ℚ) - 3| =
        |evaluateFormula (some (Formula.divC 2))
          ((reverse8 (some (Formula.divC 2)) 3 : ℕ) : ℚ) - 3| →
      reverse8 (some (Formula.divC 2)) 3 ≤ j) :=
  reverseFormula8_argmin (some (Formula.divC 2)) 3 (by simp [isIdentityFormula])
    (by norm_num [isAnalyticString])

/-- C1 counterexample: for the recognized analytic text X/4 at target 256 the
8-bit reverse evaluation returns 1024, which is not a raw value in [0,255],
so reverse evaluation does not always return the in-range minimizer. -/
theorem reverseFormula8_escapes_byte_range_cex :
    reverseFormula (some (Formula.divC 4)) 256 8 = 1024 ∧
    ¬ reverseFormula (some (Formula.divC 4)) 256 8 < 256 := by
  have h : reverseFormula (some (Formula.divC 4)) 256 8 = round ((256:ℚ) * 4) := by
    simp [reverseFormula]
  rw [h, show round ((256:ℚ) * 4) = 1024 by norm_num]
  exact ⟨rfl, by omega⟩

lemma getD_replicate_self {α : Type} (a : α) (n k : ℕ) :
    (List.replicate n a).getD k a = a := by
  induction n generalizing k with
  | zero => rfl
  | succ p ih =>
      rw [List.replicate_succ]
      cases k with
      | zero => rfl
      | succ j => rw [List.getD_cons_succ]; exact ih j

lemma extractRow_length (rom : List ℕ) (m : DMEMap) :
    ∀ n off, (extractRow rom m n off).1.length = n := by
  intro n
  induction n with
  | zero => intro off; rfl
  | succ p ih =>
      intro off
      rw [extractRow]
      dsimp only
      split_ifs with h
      · simp [ih]
      · simp [ih]

lemma extractRow_stuck (rom : List ℕ) (m : DMEMap) :
    ∀ n off, off + m.dataSize / 8 > rom.length →
      extractRow rom m n off = (List.replicate n 0, off) := by
  intro n
  induction n with
  | zero => intro off _; rfl
  | succ p ih =>
      intro off h
      rw [extractRow]
      dsimp only
      rw [if_pos h, ih off h, List.replicate_succ]

lemma extractRow_cell (rom : List ℕ) (m : DMEMap) :
    ∀ n off c, c < n →
      (extractRow rom m n off).1.getD c 0 =
        if off + (c + 1) * (m.dataSize / 8) > rom.length then 0
        else toFixed3 (evaluateFormula m.formula
          (readRaw rom m.dataSize m.endian (off + c * (m.dataSize / 8)))) := by
  intro n
  induction n with
  | zero => intro off c hc; omega
  | succ p ih =>
      intro off c hc
      rw [extractRow]
      dsimp only
      by_cases h : off + m.dataSize / 8 > rom.length
      · rw [if_pos h, extractRow_stuck rom m p off h]
        have hcond : off + (c + 1) * (m.dataSize / 8) > rom.length := by
          have hmul : 1 * (m.dataSize / 8) ≤ (c + 1) * (m.dataSize / 8) :=
            Nat.mul_le_mul_right _ (by omega)
          omega
        rw [if_pos hcond]
        cases c with
        | zero => rfl
        | succ c' =>
            dsimp only
            rw [List.getD_cons_succ]
            exact getD_replicate_self 0 p c'
      · rw [if_neg h]
        cases c with
        | zero =>
            dsimp only
            rw [List.getD_cons_zero, if_neg (by simpa using h)]
            norm_num
        | succ c' =>
            dsimp only
            rw [List.getD_cons_succ, ih (off + m.dataSize / 8) c' (by omega)]
            have e1 : off + m.dataSize / 8 + (c' + 1) * (m.dataSize / 8) =
                off + (c' + 1 + 1) * (m.dataSize / 8) := by ring
            have e2 : off + m.dataSize / 8 + c' * (m.dataSize / 8) =
                off + (c' + 1) * (m.dataSize / 8) := by ring
            rw [e1, e2]

lemma extractRow_end (rom : List ℕ) (m : DMEMap) :
    ∀ n off, ∃ j, j ≤ n ∧ (extractRow rom m n off).2 = off + j * (m.dataSize / 8) ∧
      (j < n → off + j * (m.dataSize / 8) + m.dataSize / 8 > rom.length) := by
  intro n
  induction n with
  | zero =>
      intro off
      exact ⟨0, le_refl 0, by simp [extractRow], by omega⟩
  | succ p ih =>
      intro off
      rw [extractRow]
      dsimp only
      by_cases h : off + m.dataSize / 8 > rom.length
      · rw [if_pos h, extractRow_stuck rom m p off h]
        exact ⟨0, by omega, by simp, fun _ => by simpa using h⟩
      · rw [if_neg h]
        obtain ⟨j, hj, he, hs⟩ := ih (off + m.dataSize / 8)
        refine ⟨j + 1, by omega, ?_, ?_⟩
        · dsimp only
          rw [he]
          ring
        · intro hlt
          have hrest := hs (by omega)
          have e : off + m.dataSize / 8 + j * (m.dataSize / 8) =
              off + (j + 1) * (m.dataSize / 8) := by ring
          omega

lemma extractRows_length (rom : List ℕ) (m : DMEMap) :
    ∀ nr off, (extractRows rom m nr off).length = nr := by
  intro nr
  induction nr with
  | zero => intro off; rfl
  | succ p ih =>
      intro off
      rw [extractRows]
      rw [List.length_cons, ih]

lemma extractRows_cols (rom : List ℕ) (m : DMEMap) :
    ∀ nr off, ∀ row ∈ extractRows rom m nr off, row.length = m.cols := by
  intro nr
  induction nr with
  | zero => intro off row hrow; simp [extractRows] at hrow
  | succ p ih =>
      intro off row hrow
      rw [extractRows] at hrow
      rcases List.mem_cons.mp hrow with hrow' | hrow'
      · rw [hrow']
        exact extractRow_length rom m m.cols off
      · exact ih _ row hrow'

lemma extractRows_cell (rom : List ℕ) (m : DMEMap) :
    ∀ nr k0 off, off = m.offset + k0 * (m.dataSize / 8) →
      ∀ r, r < nr → ∀ c, c < m.cols →
        ((extractRows rom m nr off).getD r []).getD c 0 =
          if m.offset + (k0 + r * m.cols + c + 1) * (m.dataSize / 8) > rom.length then 0
          else toFixed3 (evaluateFormula m.formula (readRaw rom m.dataSize m.endian
            (m.offset + (k0 + r * m.cols + c) * (m.dataSize / 8)))) := by
  intro nr
  induction nr with
  | zero => intro k0 off _ r hr; omega
  | succ p ih =>
      intro k0 off hoff r hr c hc
      rw [extractRows]
      cases r with
      | zero =>
          rw [List.getD_cons_zero, extractRow_cell rom m m.cols off c hc, hoff]
          have e1 : m.offset + k0 * (m.dataSize / 8) + (c + 1) * (m.dataSize / 8) =
              m.offset + (k0 + 0 * m.cols + c + 1) * (m.dataSize / 8) := by ring
          have e2 : m.offset + k0 * (m.dataSize / 8) + c * (m.dataSize / 8) =
              m.offset + (k0 + 0 * m.cols + c) * (m.dataSize / 8) := by ring
          rw [e1, e2]
      | succ r' =>
          rw [List.getD_cons_succ]
          obtain ⟨j, hj, he, hs⟩ := extractRow_end rom m m.cols off
          by_cases hcase : j = m.cols
          · rw [ih (k0 + m.cols) _ (by rw [he, hoff, hcase]; ring) r' (by omega) c hc]
            have e1 : k0 + m.cols + r' * m.cols + c + 1 = k0 + (r' + 1) * m.cols + c + 1 := by
              ring
            have e2 : k0 + m.cols + r' * m.cols + c = k0 + (r' + 1) * m.cols + c := by ring
            rw [e1, e2]
          · have hjlt : j < m.cols := by omega
            have hstuck := hs hjlt
            rw [ih (k0 + j) _ (by rw [he, hoff]; ring) r' (by omega) c hc]
            have hbase : m.offset + (k0 + j + 1) * (m.dataSize / 8) > rom.length := by
              have e : off + j * (m.dataSize / 8) + m.dataSize / 8 =
                  m.offset + (k0 + j + 1) * (m.dataSize / 8) := by rw [hoff]; ring
              omega
            have hcond1 : m.offset + (k0 + j + r' * m.cols + c + 1) * (m.dataSize / 8) >
                rom.length := by
              have hmul : (k0 + j + 1) * (m.dataSize / 8) ≤
                  (k0 + j + r' * m.cols + c + 1) * (m.dataSize / 8) :=
                Nat.mul_le_mul_right _ (by omega)
              omega
            have hcond2 : m.offset + (k0 + (r' + 1) * m.cols + c + 1) * (m.dataSize / 8) >
                rom.length := by
              have hmul : (k0 + j + 1) * (m.dataSize / 8) ≤
                  (k0 + (r' + 1) * m.cols + c + 1) * (m.dataSize / 8) :=
                Nat.mul_le_mul_right _ (by nlinarith)
              omega
            rw [if_pos hcond1, if_pos hcond2]

/-- C5: extractMapData is total (never throws), always returns a grid of
exactly rows x cols cells, and a cell holds exactly 0 precisely when its byte
range runs past the end of the buffer, while every in-range cell holds its
extracted (formula-evaluated, 3-decimal-rounded) value. -/
theorem extractMapData_shape_safety (rom : List ℕ) (m : DMEMap)
    (_hds : m.dataSize = 8 ∨ m.dataSize = 16) (_hr : 1 ≤ m.rows) (_hc : 1 ≤ m.cols) :
    (extractMapData rom m).length = m.rows ∧
    (∀ row ∈ extractMapData rom m, row.length = m.cols) ∧
    (∀ r, r < m.rows → ∀ c, c < m.cols →
      ((extractMapData rom m).getD r []).getD c 0 =
        if m.offset + (r * m.cols + c + 1) * (m.dataSize / 8) > rom.length then 0
        else toFixed3 (evaluateFormula m.formula (readRaw rom m.dataSize m.endian
          (m.offset + (r * m.cols + c) * (m.dataSize / 8))))) := by
  refine ⟨extractRows_length rom m m.rows m.offset, extractRows_cols rom m m.rows m.offset, ?_⟩
  intro r hr' c hc'
  have h := extractRows_cell rom m m.rows 0 m.offset (by ring) r hr' c hc'
  simpa using h

theorem extractMapData_shape_safety_witness :
    (extractMapData [1, 2, 3] ⟨0, 2, 2, 8, Option.none, Option.none⟩).length = 2 ∧
    (∀ row ∈ extractMapData [1, 2, 3] ⟨0, 2, 2, 8, Option.none, Option.none⟩,
      row.length = 2) ∧
    (∀ r, r < 2 → ∀ c, c < 2 →
      ((extractMapData [1, 2, 3] ⟨0, 2, 2, 8, Option.none, Option.none⟩).getD r []).getD c 0 =
        if 0 + (r * 2 + c + 1) * (8 / 8) > [1, 2, 3].length then 0
        else toFixed3 (evaluateFormula Option.none (readRaw [1, 2, 3] 8 Option.none
          (0 + (r * 2 + c) * (8 / 8))))) :=
  extractMapData_shape_safety [1, 2, 3] ⟨0, 2, 2, 8, Option.none, Option.none⟩
    (Or.inl rfl) (by norm_num) (by norm_num)

/-- C7 amended: the Disabled check precedes the override, so a Disabled axis
always resolves to the empty sequence even when the explicit values override
is non-empty; for a non-Disabled axis a non-empty override is returned
verbatim.  Otherwise the axis length is size with 0 falling back to 1; a Step
axis synthesizes formula(i*step) for i in [0,length) where step is stepValue
with an absent or zero stepValue falling back to 1, and a RomAddress axis
whose whole span overruns the buffer yields a same-length all-zero
sequence. -/
theorem getAxisValues_resolution (rom : List ℕ) (a : Axis) :
    (a.source = AxisSource.none → getAxisValues rom (some a) = []) ∧
    (a.source ≠ AxisSource.none → a.values ≠ [] → getAxisValues rom (some a) = a.values) ∧
    (a.source = AxisSource.step → a.values = [] →
      getAxisValues rom (some a) =
        (List.range (if a.size = 0 then 1 else a.size)).map fun i : ℕ =>
          evaluateFormula a.formula ((i : ℚ) *
            (match a.stepValue with
             | Option.none => 1
             | some s => if s = 0 then 1 else s))) ∧
    (a.source = AxisSource.romAddress → a.values = [] →
      a.offset + (if a.size = 0 then 1 else a.size) * (a.dataSize / 8) > rom.length →
      getAxisValues rom (some a) =
        List.replicate (if a.size = 0 then 1 else a.size) 0) := by
  refine ⟨?_, ?_, ?_, ?_⟩
  · intro h
    simp [getAxisValues, h]
  · intro h hv
    simp [getAxisValues, h, hv]
  · intro hsrc hv
    simp [getAxisValues, hsrc, hv]
  · intro hsrc hv hspan
    simp [getAxisValues, hsrc, hv]
    intro hle
    exfalso
    by_cases hsz : a.size = 0
    · rw [if_pos hsz] at hspan
      rw [if_pos hsz] at hle
      omega
    · rw [if_neg hsz] at hspan
      rw [if_neg hsz] at hle
      omega

theorem getAxisValues_resolution_witness :
    getAxisValues []
        (some ⟨2, 0, AxisSource.step, Option.none, 8, Option.none, Option.none, [5, 6]⟩) =
      [5, 6] ∧
    getAxisValues []
        (some ⟨3, 0, AxisSource.step, some 2, 8, Option.none, Option.none, []⟩) =
      [0, 2, 4] ∧
    getAxisValues []
        (some ⟨2, 0, AxisSource.step, some 0, 8, Option.none, Option.none, []⟩) =
      [0, 1] := by
  refine ⟨(getAxisValues_resolution [] _).2.1 (by decide) (by decide), ?_, ?_⟩
  · have h := (getAxisValues_resolution []
        (⟨3, 0, AxisSource.step, some 2, 8, Option.none, Option.none, []⟩ : Axis)).2.2.1 rfl rfl
    have hr : List.range 3 = [0, 1, 2] := rfl
    rw [h]
    norm_num [hr, evaluateFormula]
  · have h := (getAxisValues_resolution []
        (⟨2, 0, AxisSource.step, some 0, 8, Option.none, Option.none, []⟩ : Axis)).2.2.1 rfl rfl
    have hr : List.range 2 = [0, 1] := rfl
    rw [h]
    norm_num [hr, evaluateFormula]

/-- C7 counterexample: a Disabled-source axis with a non-empty explicit values
override resolves to the empty sequence, not to the override, because the
source checks the Disabled case before the override. -/
theorem getAxisValues_disabled_override_cex :
    getAxisValues []
        (some ⟨3, 0, AxisSource.none, Option.none, 8, Option.none, Option.none, [1, 2, 3]⟩) =
      [] ∧
    getAxisValues []
        (some ⟨3, 0, AxisSource.none, Option.none, 8, Option.none, Option.none, [1, 2, 3]⟩) ≠
      [1, 2, 3] := by
  constructor
  · rfl
  · intro h
    simp [getAxisValues] at h

lemma findSome?_range'_skip {α : Type} (f : ℕ → Option α) :
    ∀ (len s m : ℕ) (r : α), s ≤ m → m < s + len →
      (∀ j, s ≤ j → j < m → f j = Option.none) → f m = some r →
      (List.range' s len).findSome? f = some r := by
  intro len
  induction len with
  | zero => intro s m r h1 h2 _ _; omega
  | succ p ih =>
      intro s m r h1 h2 hnone hm
      rw [List.range'_succ, List.findSome?_cons]
      by_cases hsm : s = m
      · subst hsm
        rw [hm]
      · have hfs : f s = Option.none := hnone s (le_refl s) (by omega)
        rw [hfs]
        exact ih (s + 1) m r (by omega) (by omega) (fun j hj1 hj2 => hnone j (by omega) hj2) hm

lemma findSome?_range_skip {α : Type} (f : ℕ → Option α) (n m : ℕ) (r : α)
    (hm : m < n) (hnone : ∀ j, j < m → f j = Option.none) (hr : f m = some r) :
    (List.range n).findSome? f = some r := by
  rw [List.range_eq_range' n]
  exact findSome?_range'_skip f n 0 m r (by omega) (by omega) (fun j _ hj => hnone j hj) hr

lemma walkLeft_main (data idDigits : List ℕ) (start : ℕ)
    (h10 : idDigits.length = 10)
    (hbyte : ∀ k, k < 10 → data.getD (start + k) 0 = idDigits.getD (9 - k) 0)
    (hdig : ∀ c ∈ idDigits, 48 ≤ c ∧ c ≤ 57) :
    ∀ k, k ≤ 9 → walkLeft data (start + k) (9 - k) (idDigits.take (9 - k)) =
      some (idDigits, start) := by
  have hmem : ∀ n, n < 10 → idDigits.getD n 0 ∈ idDigits := by
    intro n hn
    have hn' : n < idDigits.length := by rw [h10]; exact hn
    rw [List.getD_eq_getElem idDigits 0 hn']
    exact List.getElem_mem hn'
  have hdigB : ∀ n, n < 10 → isDigitByte (idDigits.getD n 0) = true := by
    intro n hn
    have h' := hdig _ (hmem n hn)
    simp only [isDigitByte, Bool.and_eq_true, decide_eq_true_eq]
    omega
  have htake : ∀ n, n < 10 → idDigits.take n ++ [idDigits.getD n 0] = idDigits.take (n + 1) := by
    intro n hn
    have hn' : n < idDigits.length := by rw [h10]; exact hn
    rw [List.getD_eq_getElem idDigits 0 hn', ← List.concat_eq_append, List.take_concat_get]
  intro k
  induction k with
  | zero =>
      intro _
      simp only [Nat.add_zero, Nat.sub_zero]
      rw [walkLeft.eq_def]
      dsimp only
      have hc := hbyte 0 (by omega)
      rw [Nat.add_zero] at hc
      rw [hc, if_pos (hdigB 9 (by omega)), if_pos (show (9:ℕ) + 1 = 10 by norm_num)]
      rw [htake 9 (by omega), show (9:ℕ) + 1 = 10 from rfl, ← h10, List.take_length]
  | succ k' ih =>
      intro hk
      rw [walkLeft.eq_def]
      dsimp only
      have hc := hbyte (k' + 1) (by omega)
      rw [hc, if_pos (hdigB (9 - (k' + 1)) (by omega)),
        if_neg (show ¬(9 - (k' + 1) + 1 = 10) by omega)]
      rw [htake (9 - (k' + 1)) (by omega)]
      have e1 : 9 - (k' + 1) + 1 = 9 - k' := by omega
      rw [e1]
      exact ih (by omega)

/-- C8 amended: if the buffer splits as pre ++ reverse(ID) ++ post for a
10-digit identifier ID with prefix 1267, the mirrored prefix 7621 occurs at no
earlier offset, and the match position start+6 lies below the scan bound
length-15, then the reversed-mode matcher returns exactly the forward-ordered
identifier together with the start offset of the reversed region.  The margin
condition is forced: start positions are only scanned below length - 15, so a
reversed identifier too close to the end of the buffer is never found. -/
theorem findBoschID_reversed_recovers (pre idDigits post : List ℕ)
    (h10 : idDigits.length = 10)
    (hdig : ∀ c ∈ idDigits, 48 ≤ c ∧ c ≤ 57)
    (hpre4 : idDigits.take 4 = [49, 50, 54, 55])
    (hmargin : pre.length + 6 < (pre ++ (idDigits.reverse ++ post)).length - 15)
    (hnoearly : ∀ j, j < pre.length + 6 →
      matchAt (pre ++ (idDigits.reverse ++ post)) j [55, 54, 50, 49] = false) :
    findBoschIDWithOffset (pre ++ (idDigits.reverse ++ post)) [49, 50, 54, 55] true =
      some (idDigits, pre.length) := by
  have hrevlen : idDigits.reverse.length = 10 := by rw [List.length_reverse, h10]
  have hbyte : ∀ k, k < 10 →
      (pre ++ (idDigits.reverse ++ post)).getD (pre.length + k) 0 =
        idDigits.getD (9 - k) 0 := by
    intro k hk
    rw [List.getD_eq_getElem?_getD, List.getD_eq_getElem?_getD]
    rw [List.getElem?_append_right (by omega : pre.length ≤ pre.length + k)]
    have e : pre.length + k - pre.length = k := by omega
    rw [e, List.getElem?_append_left (by rw [hrevlen]; omega),
      List.getElem?_reverse (by rw [h10]; omega)]
    have e2 : idDigits.length - 1 - k = 9 - k := by rw [h10]
    rw [e2]
  have hmatch : matchAt (pre ++ (idDigits.reverse ++ post)) (pre.length + 6)
      [55, 54, 50, 49] = true := by
    rw [matchAt]
    have hdrop : (pre ++ (idDigits.reverse ++ post)).drop (pre.length + 6) =
        (idDigits.take 4).reverse ++ post := by
      rw [List.drop_append 6, List.drop_append_of_le_length (by rw [hrevlen]; omega),
        List.drop_reverse]
      have e : idDigits.length - 6 = 4 := by rw [h10]
      rw [e]
    rw [hdrop, hpre4]
    rfl
  rw [findBoschIDWithOffset]
  show (List.range ((pre ++ (idDigits.reverse ++ post)).length - 15)).findSome?
      (fun i =>
        if matchAt (pre ++ (idDigits.reverse ++ post)) i [55, 54, 50, 49] then
          walkLeft (pre ++ (idDigits.reverse ++ post)) (i + 4 - 1) 0 []
        else Option.none) =
    some (idDigits, pre.length)
  apply findSome?_range_skip _ _ (pre.length + 6) _ hmargin
  · intro j hj
    rw [hnoearly j hj]
    rfl
  · rw [if_pos hmatch]
    have e : pre.length + 6 + 4 - 1 = pre.length + 9 := by omega
    rw [e]
    exact walkLeft_main (pre ++ (idDigits.reverse ++ post)) idDigits pre.length h10 hbyte
      hdig 9 (by omega)

theorem findBoschID_reversed_recovers_witness :
    findBoschIDWithOffset
        ([] ++ (([49, 50, 54, 55, 51, 53, 54, 56, 49, 48] : List ℕ).reverse ++
          List.replicate 12 0)) [49, 50, 54, 55] true =
      some ([49, 50, 54, 55, 51, 53, 54, 56, 49, 48], 0) :=
  findBoschID_reversed_recovers [] [49, 50, 54, 55, 51, 53, 54, 56, 49, 48]
    (List.replicate 12 0) rfl (by decide) rfl (by decide) (by decide)

/-- C8 counterexample: a buffer that consists of exactly the ten reversed
bytes of the identifier 1267356810 contains the mirrored prefix, yet the
matcher scans start positions only below length - 15, so on this 10-byte
buffer it scans nothing and returns no match instead of the identifier. -/
theorem findBoschID_reversed_short_buffer_cex :
    findBoschIDWithOffset [48, 49, 56, 54, 53, 51, 55, 54, 50, 49] [49, 50, 54, 55] true =
      Option.none ∧
    findBoschIDWithOffset [48, 49, 56, 54, 53, 51, 55, 54, 50, 49] [49, 50, 54, 55] true ≠
      some ([49, 50, 54, 55, 51, 53, 54, 56, 49, 48], 0) := by
  exact ⟨rfl, by decide⟩
